import Mathlib

set_option maxRecDepth 16000

/-!
Verification of the SPARX-64/128 cipher engine and the statistical
experiment harness of the sparx-differential-attacks repository.

The development shallowly embeds the C++ sources:
* `src/code/empirical-tests/src/ciphers/sparx64.cpp` (cipher engine),
* `src/code/empirical-tests/src/sparx-64-tests.cpp` (test vectors),
* the boomerang / truncated-differential experiment front ends
  (worker chunking, match predicates),
* `include/utils/StateIterator.h` + its implementation (bitmask iterator),
* `include/utils/xorshift1024.h` (PRNG and `get_random`).

Machine words are modelled as `Nat` with explicit reduction `% 2 ^ w`
exactly where the C code's unsigned arithmetic wraps.
-/

namespace Sparx64

/-- ROTL16 macro: `(((x) << n) | ((x) >> (16 - (n))))` truncated to 16 bits
(the C computation happens on promoted ints and is stored into `uint16_t`). -/
def rotl16 (x n : Nat) : Nat := ((x <<< n) ||| (x >>> (16 - n))) % 65536

/-- ROTR16 macro: `(((x) >> n) | ((x) << (16 - (n))))` truncated to 16 bits. -/
def rotr16 (x n : Nat) : Nat := ((x >>> n) ||| (x <<< (16 - n))) % 65536

/-- 16-bit modular addition (`uint16_t` `+=`). -/
def add16 (a b : Nat) : Nat := (a + b) % 65536

/-- 16-bit modular subtraction (`uint16_t` `-=`), for operands below `2 ^ 16`. -/
def sub16 (a b : Nat) : Nat := (a + 65536 - b % 65536) % 65536

/-- The SPARX round function `A` on one branch `(l, r)`:
rotate `l` right by 7, add `r` into it, rotate `r` left by 2,
XOR the updated `l` into `r`. -/
def A (l r : Nat) : Nat × Nat :=
  let l1 := rotr16 l 7
  let l2 := add16 l1 r
  let r1 := rotl16 r 2
  let r2 := r1 ^^^ l2
  (l2, r2)

/-- Source `A_inverse`: XOR `l` out of `r`, rotate `r` right by 2, subtract it
from `l`, rotate `l` left by 7. -/
def A_inverse (l r : Nat) : Nat × Nat :=
  let r1 := r ^^^ l
  let r2 := rotr16 r1 2
  let l1 := sub16 l r2
  let l2 := rotl16 l1 7
  (l2, r2)

/-- A 4-word (64-bit) SPARX state: two branches of two 16-bit words. -/
structure Word4 where
  x0 : Nat
  x1 : Nat
  x2 : Nat
  x3 : Nat
deriving DecidableEq, Repr

/-- All four words of a state are 16-bit values. -/
def Word4.Bounded (s : Word4) : Prop :=
  s.x0 < 65536 ∧ s.x1 < 65536 ∧ s.x2 < 65536 ∧ s.x3 < 65536

instance (s : Word4) : Decidable s.Bounded := by
  unfold Word4.Bounded; infer_instance

/-- The linear mixing layer `L2`: XOR-mix an 8-bit rotation of
`state[0] ^ state[1]` into the second branch, then swap the branches. -/
def L2 (s : Word4) : Word4 :=
  let tmp := rotl16 (s.x0 ^^^ s.x1) 8
  ⟨s.x2 ^^^ (s.x0 ^^^ tmp), s.x3 ^^^ (s.x1 ^^^ tmp), s.x0, s.x1⟩

/-- Source `L2_inverse`: swap the branches back first, then undo the XOR mixing. -/
def L2_inverse (s : Word4) : Word4 :=
  let tmp := rotl16 (s.x2 ^^^ s.x3) 8
  ⟨s.x2, s.x3, s.x0 ^^^ (s.x2 ^^^ tmp), s.x1 ^^^ (s.x3 ^^^ tmp)⟩

/-- The expanded-key table `ctx->subkeys`, addressed by
(row `s * NUM_BRANCHES + b`, column `2*r` or `2*r + 1`).
Rows 0..16 and columns 0..5 correspond to the C array
`uint16_t subkeys[17][6]`; the claims-relevant accesses stay inside it. -/
structure SparxCtx where
  subkeys : Nat → Nat → Nat

/-- Every table entry is a 16-bit value. -/
def SparxCtx.Bounded (ctx : SparxCtx) : Prop :=
  ∀ i j, ctx.subkeys i j < 65536

/-- One encryption round on one branch pair at table row `row`, round `r`:
XOR in the round's subkey pair, then apply `A`. -/
def encRound (ctx : SparxCtx) (row r : Nat) (p : Nat × Nat) : Nat × Nat :=
  A (p.1 ^^^ ctx.subkeys row (2 * r)) (p.2 ^^^ ctx.subkeys row (2 * r + 1))

/-- One decryption round on one branch pair: apply `A_inverse`,
then XOR the round's subkey pair back out. -/
def decRound (ctx : SparxCtx) (row r : Nat) (p : Nat × Nat) : Nat × Nat :=
  let q := A_inverse p.1 p.2
  (q.1 ^^^ ctx.subkeys row (2 * r), q.2 ^^^ ctx.subkeys row (2 * r + 1))

/-- Source `sparx_encrypt_rounds(ctx, state, from_round, to_round)`:
`s = from_round / NUM_ROUNDS_PER_STEP`; per branch `b`, rounds
`r = from_round - 1, ..., to_round - 1` in ascending order apply
XOR-subkey-then-A at row `s * NUM_BRANCHES + b`.
Defined for `1 ≤ from_round` (as documented for the engine). -/
def sparx_encrypt_rounds (ctx : SparxCtx) (st : Word4) (fromR toR : Nat) : Word4 :=
  let s := fromR / 3
  let rs := List.range' (fromR - 1) (toR - (fromR - 1))
  let b0 := rs.foldl (fun p r => encRound ctx (s * 2) r p) (st.x0, st.x1)
  let b1 := rs.foldl (fun p r => encRound ctx (s * 2 + 1) r p) (st.x2, st.x3)
  ⟨b0.1, b0.2, b1.1, b1.2⟩

/-- Source `sparx_decrypt_rounds(ctx, state, from_round, to_round)`:
`s = from_round / NUM_ROUNDS_PER_STEP`; per branch, rounds
`r = to_round - 1` down to `from_round - 1` apply `A_inverse` then
XOR the subkey pair out.  The C loop is
`for (size_t r = to_round - 1; r >= from_round - 1; --r)` with an
unsigned counter: when `from_round = 1` the exit condition `r >= 0`
is always true, the counter wraps past zero and the loop never
terminates normally; this divergence is modelled as `none`.
(`from_round = 0` would likewise wrap `from_round - 1` and is out of
the documented domain; it is mapped to `none` as well.) -/
def sparx_decrypt_rounds (ctx : SparxCtx) (st : Word4) (fromR toR : Nat) :
    Option Word4 :=
  if fromR < 2 then none
  else
    let s := fromR / 3
    let rs := List.range' (fromR - 1) (toR - (fromR - 1))
    let b0 := rs.foldr (fun r p => decRound ctx (s * 2) r p) (st.x0, st.x1)
    let b1 := rs.foldr (fun r p => decRound ctx (s * 2 + 1) r p) (st.x2, st.x3)
    some ⟨b0.1, b0.2, b1.1, b1.2⟩

/-- Number of loop iterations per branch performed by the round loop of
`sparx_decrypt_rounds` (`for (size_t r = to_round-1; r >= from_round-1; --r)`),
as an `Option`: `none` when the unsigned loop never exits. -/
def sparx_decrypt_rounds_iterations (fromR toR : Nat) : Option Nat :=
  if fromR < 2 then none else some (toR - (fromR - 1))

/-- The three rounds of step `s` (0-based), both branches:
branch `b` uses table row `s * NUM_BRANCHES + b`, rounds `r = 0, 1, 2`. -/
def stepEncRounds (ctx : SparxCtx) (s : Nat) (st : Word4) : Word4 :=
  let b0 := (List.range 3).foldl (fun p r => encRound ctx (s * 2) r p) (st.x0, st.x1)
  let b1 := (List.range 3).foldl (fun p r => encRound ctx (s * 2 + 1) r p) (st.x2, st.x3)
  ⟨b0.1, b0.2, b1.1, b1.2⟩

/-- One full encryption step: the step's rounds followed by `SPARX_L`. -/
def stepEnc (ctx : SparxCtx) (s : Nat) (st : Word4) : Word4 :=
  L2 (stepEncRounds ctx s st)

/-- Terminal whitening: XOR subkey group `NUM_BRANCHES * NUM_STEPS = 16`
into both branches. -/
def whiten (ctx : SparxCtx) (st : Word4) : Word4 :=
  ⟨st.x0 ^^^ ctx.subkeys 16 0, st.x1 ^^^ ctx.subkeys 16 1,
   st.x2 ^^^ ctx.subkeys 16 2, st.x3 ^^^ ctx.subkeys 16 3⟩

/-- The step loop of `sparx_encrypt_steps` without the whitening branch:
steps `s = from_step - 1, ..., to_step - 1` in ascending order, each step
running its rounds and then `SPARX_L`. -/
def encStepsCore (ctx : SparxCtx) (st : Word4) (fromS toS : Nat) : Word4 :=
  (List.range' (fromS - 1) (toS - (fromS - 1))).foldl
    (fun x s => stepEnc ctx s x) st

/-- Source `sparx_encrypt_steps(ctx, state, from_step, to_step)`: the step loop,
then (`if (to_step == SPARX64_NUM_STEPS)`) the terminal whitening. -/
def sparx_encrypt_steps (ctx : SparxCtx) (st : Word4) (fromS toS : Nat) : Word4 :=
  let core := encStepsCore ctx st fromS toS
  if toS = 8 then whiten ctx core else core

/-- One full decryption step: `SPARX_L_INV`, then both branches' rounds
with `r = 2, 1, 0` applying `A_inverse` then XOR-out. -/
def stepDec (ctx : SparxCtx) (s : Nat) (st : Word4) : Word4 :=
  let y := L2_inverse st
  let b0 := (List.range 3).foldr (fun r p => decRound ctx (s * 2) r p) (y.x0, y.x1)
  let b1 := (List.range 3).foldr (fun r p => decRound ctx (s * 2 + 1) r p) (y.x2, y.x3)
  ⟨b0.1, b0.2, b1.1, b1.2⟩

/-- Source `sparx_decrypt_steps(ctx, state, from_step, to_step)`: strip the
whitening when `to_step == SPARX64_NUM_STEPS`, then steps
`s = to_step - 1` down to `from_step - 1` (an `int` loop in the source),
each inverting `L` and then the step's rounds. -/
def sparx_decrypt_steps (ctx : SparxCtx) (st : Word4) (fromS toS : Nat) : Word4 :=
  let st1 := if toS = 8 then whiten ctx st else st
  (List.range' (fromS - 1) (toS - (fromS - 1))).foldr
    (fun s x => stepDec ctx s x) st1

/-- Source `sparx_encrypt`: full encryption, steps 1..8. -/
def sparx_encrypt (ctx : SparxCtx) (st : Word4) : Word4 :=
  sparx_encrypt_steps ctx st 1 8

/-- Source `sparx_decrypt`: full decryption, steps 1..8. -/
def sparx_decrypt (ctx : SparxCtx) (st : Word4) : Word4 :=
  sparx_decrypt_steps ctx st 1 8

/-- Modelled from the spec (claim C2 wording): step-indexed encryption in
which the linear layer is applied after every step of the range *except*
after the caller-specified final step when that step is the cipher's last
step (`to_step = 8`); the terminal whitening is still applied when the
range reaches the total step count.  This definition exists only to be
compared against the source-faithful `sparx_encrypt_steps`. -/
def sparx_encrypt_steps_specC2 (ctx : SparxCtx) (st : Word4) (fromS toS : Nat) :
    Word4 :=
  if toS = 8 then
    whiten ctx (stepEncRounds ctx (toS - 1) (encStepsCore ctx st fromS (toS - 1)))
  else
    encStepsCore ctx st fromS toS

/-- The 8-word key register of SPARX-64/128. -/
structure KeyReg where
  k0 : Nat
  k1 : Nat
  k2 : Nat
  k3 : Nat
  k4 : Nat
  k5 : Nat
  k6 : Nat
  k7 : Nat
deriving DecidableEq, Repr

/-- The additive/Misty mixing half of `K_perm_64_128`: `A` on words 0-1,
modular addition of the (updated) words 0-1 into words 2-3, modular
addition of the round counter into word 7. -/
def keyMix (k : KeyReg) (round : Nat) : KeyReg :=
  let a := A k.k0 k.k1
  { k with
    k0 := a.1, k1 := a.2,
    k2 := add16 k.k2 a.1, k3 := add16 k.k3 a.2,
    k7 := add16 k.k7 round }

/-- Cyclic rotation of the 8-word key register by 2 positions
(the branch-rotation loop of `K_perm_64_128`). -/
def keyRotate2 (k : KeyReg) : KeyReg :=
  ⟨k.k6, k.k7, k.k0, k.k1, k.k2, k.k3, k.k4, k.k5⟩

/-- Source `K_perm_64_128(key, round)`: the Misty-like transform, the additive
mixing, the round-counter injection, then the rotation by two words. -/
def K_perm_64_128 (k : KeyReg) (round : Nat) : KeyReg :=
  keyRotate2 (keyMix k round)

/-- First `2 * NUM_ROUNDS_PER_STEP = 6` words of the key register:
one subkey group. -/
def firstSix (k : KeyReg) : List Nat :=
  [k.k0, k.k1, k.k2, k.k3, k.k4, k.k5]

/-- The key-schedule loop starting at counter `c` with register `k`,
emitting `n` more groups: each iteration stores the register's first six
words and then applies `K_perm_64_128` with counter `c + 1`. -/
def scheduleFrom (k : KeyReg) (c : Nat) : Nat → List (List Nat)
  | 0 => []
  | n + 1 => firstSix k :: scheduleFrom (K_perm_64_128 k (c + 1)) (c + 1) n

/-- Source `sparx_key_schedule`: `NUM_BRANCHES * NUM_STEPS + 1 = 17` subkey groups
of six words each, derived from the 8-word master key register. -/
def sparx_key_schedule (mk : KeyReg) : List (List Nat) :=
  scheduleFrom mk 0 17

/-- The key register after `i` applications of the key permutation with
round counters `1, ..., i` (the register that produces subkey group `i`). -/
def keyRegisterIter (mk : KeyReg) : Nat → KeyReg
  | 0 => mk
  | i + 1 => K_perm_64_128 (keyRegisterIter mk i) (i + 1)

/-- The key register after `i` applications of the key permutation with
round counters `c + 1, ..., c + i` (generalisation of `keyRegisterIter`
that follows the recursion of `scheduleFrom`). -/
def keyRegisterFrom (k : KeyReg) (c : Nat) : Nat → KeyReg
  | 0 => k
  | i + 1 => keyRegisterFrom (K_perm_64_128 k (c + 1)) (c + 1) i

/-- A `SparxCtx` whose table rows are the groups of a key schedule. -/
def ctxOfSchedule (groups : List (List Nat)) : SparxCtx :=
  ⟨fun i j => (groups.getD i []).getD j 0⟩

/-- Test-vector master key `0011 2233 4455 6677 8899 aabb ccdd eeff`. -/
def testKey : KeyReg :=
  ⟨0x0011, 0x2233, 0x4455, 0x6677, 0x8899, 0xaabb, 0xccdd, 0xeeff⟩

/-- The documented expected expanded-key sequence
(`SPARX_64_128_EXPANDED_KEYS` of `sparx-64-tests.cpp`). -/
def expectedExpandedKeys : List (List Nat) :=
  [[0x0011, 0x2233, 0x4455, 0x6677, 0x8899, 0xaabb],
   [0xccdd, 0xef00, 0x4433, 0xccff, 0x8888, 0x3376],
   [0x8899, 0xaabd, 0xaa99, 0x169a, 0xeecc, 0xe399],
   [0x8888, 0x3379, 0xddce, 0x7738, 0x8867, 0x8dd2],
   [0xeecc, 0xe39d, 0x448a, 0x896e, 0x2258, 0x00a6],
   [0x8867, 0x8dd7, 0x7d7a, 0xf30d, 0xc204, 0x7c7b],
   [0x2258, 0x00ac, 0x5ce7, 0x6bb9, 0xda61, 0x5ec6],
   [0xc204, 0x7c82, 0xb0f0, 0xb240, 0x0dd7, 0x1df9],
   [0xda61, 0x5ece, 0x8606, 0x740f, 0x36f6, 0x264f],
   [0x0dd7, 0x1e02, 0x2282, 0x59bb, 0xa888, 0xcdca],
   [0x36f6, 0x2659, 0xcc1d, 0xb415, 0xee9f, 0x0dd0],
   [0xa888, 0xcdd5, 0x12c6, 0x8ba2, 0xdee3, 0x3fb7],
   [0xee9f, 0x0ddc, 0xdf26, 0xe871, 0xf1ec, 0x7413],
   [0xdee3, 0x3fc4, 0x4db9, 0x7ac9, 0x2cdf, 0x633a],
   [0xf1ec, 0x7421, 0x0781, 0xf891, 0x553a, 0x735a],
   [0x2cdf, 0x6349, 0x4e04, 0x9e81, 0x5585, 0x9712],
   [0x553a, 0x736a, 0x21a2, 0xac87, 0x6fa6, 0x4b08]]

/-- Test-vector plaintext `0123 4567 89ab cdef`. -/
def testPlaintext : Word4 := ⟨0x0123, 0x4567, 0x89ab, 0xcdef⟩

/-- Documented test-vector ciphertext `2bbe f152 01f5 5f98`. -/
def testCiphertext : Word4 := ⟨0x2bbe, 0xf152, 0x01f5, 0x5f98⟩

/-- The context expanded from the test-vector master key. -/
def testCtx : SparxCtx := ctxOfSchedule (sparx_key_schedule testKey)

/-- An all-zero subkey table, used for concrete counterexamples. -/
def zeroCtx : SparxCtx := ⟨fun _ _ => 0⟩

end Sparx64

namespace Harness

/-- Start of worker `i`'s chunk in `experiment_threading`:
`from = i * offset` with `offset = num_texts_per_key / NUM_THREADS`
(`P` trials, `W` workers). -/
def chunk_from (P W i : Nat) : Nat := i * (P / W)

/-- End (exclusive) of worker `i`'s chunk: `to = (i+1) * offset`, except the
last worker (`i + 1 == NUM_THREADS`) whose chunk extends to `P`. -/
def chunk_to (P W i : Nat) : Nat := if i + 1 = W then P else (i + 1) * (P / W)

/-- Number of indices in `[a, b)` satisfying the match predicate. -/
def countRange (pred : Nat → Bool) (a b : Nat) : Nat :=
  (List.range' a (b - a)).countP pred

/-- The aggregated match counter: each worker counts the matches in its own
chunk and the per-chunk counts are summed (the atomic increments on the
shared counter commute). -/
def totalCount (pred : Nat → Bool) (P W : Nat) : Nat :=
  (List.range W).foldl
    (fun acc i => acc + countRange pred (chunk_from P W i) (chunk_to P W i)) 0

end Harness

namespace CheckDiff

/-- Modelled from the spec (the intended match predicate of the multi-step
backward experiment): `check_difference(c1, c2, delta_l, delta_r)` as a pure
function of the two 64-bit values, comparing the XOR of the low 32-bit
halves against `delta_r` and the XOR of the high halves against `delta_l`.
The C code in the experiment instead converts the halves of the *values*
`*c1`/`*c2` to `uint32_t*` pointers and dereferences them, so the code's
result depends on unrelated memory; this definition captures the behaviour
that the spec describes and the surrounding code intends. -/
def check_difference (c1 c2 : Nat) (delta_l delta_r : Nat) : Bool :=
  let c1_l := c1 &&& 0xFFFFFFFF
  let c1_h := (c1 >>> 32) &&& 0xFFFFFFFF
  let c2_l := c2 &&& 0xFFFFFFFF
  let c2_h := (c2 >>> 32) &&& 0xFFFFFFFF
  ((c1_l ^^^ c2_l) == delta_r) && ((c1_h ^^^ c2_h) == delta_l)

end CheckDiff

namespace StateIter

/-- Bits `j = 0, ..., 7` that are set in byte `b`
(tested as `(b & (1 << j)) != 0`, ascending `j`). -/
def bitsOfByte (b : Nat) : List Nat :=
  (List.range 8).filter (fun j => b &&& (1 <<< j) != 0)

/-- Weight of one byte of the mask (the inner loop of
`find_hamming_weight`). -/
def byteWeight (b : Nat) : Nat := (bitsOfByte b).length

/-- Source `find_hamming_weight(states_mask, num_bytes)`: total number of set bits
over all mask bytes. -/
def find_hamming_weight (mask : List Nat) : Nat :=
  (mask.map byteWeight).sum

/-- Helper for `find_shift_indices`: the source iterates the byte index `i`
from `num_bytes - 1` down to `0`, which is the mask list reversed; byte at
reversed position `t = num_bytes - 1 - i` contributes positions
`8 * t + j` for its set bits `j`, in ascending order. -/
def shiftIndicesGo : List Nat → Nat → List Nat
  | [], _ => []
  | b :: rest, t => (bitsOfByte b).map (fun j => 8 * t + j) ++ shiftIndicesGo rest (t + 1)

/-- Source `find_shift_indices(states_mask, num_bytes, shift_indices)`:
the bit positions (within the big-endian value of the mask) of the mask's
set bits, collected from the least-significant byte upwards. -/
def find_shift_indices (mask : List Nat) : List Nat :=
  shiftIndicesGo mask.reverse 0

/-- The `StateIterator` object state: the fields set up by the constructor
plus the running `current_state_index`. -/
structure StateIterator where
  current_state_index : Nat
  num_states : Nat
  num_active_bits : Nat
  shift_indices : List Nat
deriving Repr

/-- The constructor `StateIterator(states_mask, num_bytes)` followed by
`reset()`: `num_states = 1 << hamming_weight`, index 0. -/
def init (mask : List Nat) : StateIterator :=
  { current_state_index := 0
    num_states := 1 <<< find_hamming_weight mask
    num_active_bits := find_hamming_weight mask
    shift_indices := find_shift_indices mask }

/-- Source `has_next()`: `num_states > current_state_index`. -/
def hasNext (it : StateIterator) : Bool :=
  it.num_states > it.current_state_index

/-- Source `get_num_states()`. -/
def getNumStates (it : StateIterator) : Nat := it.num_states

/-- Source `internal_next_as_uint64()`: for `i = 0, ..., num_active_bits - 1`,
if bit `i` of `current_state_index` is set, OR `1 << shift_indices[i]`
into the value. -/
def internalNextAsUint64 (it : StateIterator) : Nat :=
  (List.range it.num_active_bits).foldl
    (fun acc i =>
      if it.current_state_index &&& (1 <<< i) != 0 then
        acc ||| (1 <<< it.shift_indices.getD i 0)
      else acc) 0

/-- Source `next_as_uint64()`: emit the current value and advance the index. -/
def nextAsUint64 (it : StateIterator) : Nat × StateIterator :=
  (internalNextAsUint64 it, { it with current_state_index := it.current_state_index + 1 })

/-- The iterator after `m` calls to `next_as_uint64`. -/
def advance (it : StateIterator) : Nat → StateIterator
  | 0 => it
  | m + 1 => (nextAsUint64 (advance it m)).2

/-- The value returned by the `i`-th call (0-based) to `next_as_uint64`
after construction or reset. -/
def output (mask : List Nat) (i : Nat) : Nat :=
  (nextAsUint64 (advance (init mask) i)).1

/-- Reference function for the spread of an index over a list of bit
positions: bit `t` of `idx` is placed at position `ps[t]` (increasing
significance along the list). -/
def spread : List Nat → Nat → Nat
  | [], _ => 0
  | p :: rest, idx => (idx % 2) * 2 ^ p + spread rest (idx / 2)

end StateIter

namespace Xorshift

/-- The xorshift1024* generator state: 16 words `s[0..15]` and the index
`p`.  Word values are 64-bit (`Nat` below `2 ^ 64`). -/
structure Ctx where
  s : Nat → Nat
  p : Nat

/-- Source `xorshift1024_next(ctx)`: one generator step; returns the output word
and the updated state.  `<<`-results and the final multiplication are
reduced mod `2 ^ 64` as the C `uint64_t` arithmetic wraps. -/
def next (ctx : Ctx) : Nat × Ctx :=
  let s0 := ctx.s (ctx.p % 16)
  let p1 := (ctx.p + 1) % 16
  let s1 := ctx.s p1
  let s1a := s1 ^^^ ((s1 <<< 31) % 18446744073709551616)
  let v := s1a ^^^ s0 ^^^ (s1a >>> 11) ^^^ (s0 >>> 30)
  ((v * 1181783497276652981) % 18446744073709551616,
   { s := fun i => if i = p1 then v else ctx.s i, p := p1 })

/-- The list of `n` consecutive outputs of `xorshift1024_next` starting
from `ctx`, together with the final state. -/
def nextWords (ctx : Ctx) : Nat → List Nat × Ctx
  | 0 => ([], ctx)
  | n + 1 =>
    let w := next ctx
    let rest := nextWords w.2 n
    (w.1 :: rest.1, rest.2)

/-- The `num_bytes`-byte little-endian object representation of a 64-bit
word, as `memcpy` copies it on the (little-endian) target platform. -/
def toLEBytes (w len : Nat) : List Nat :=
  (List.range len).map (fun i => (w >>> (8 * i)) % 256)

/-- Model of `memcpy(data + off, bytes, bytes.length)` on a byte buffer, for writes
that stay inside the buffer. -/
def listWrite (data : List Nat) (off : Nat) (bytes : List Nat) : List Nat :=
  data.take off ++ bytes ++ data.drop (off + bytes.length)

/-- The word loop of `get_random`: for `count` iterations starting at word
index `i`, draw a word and `memcpy` its 8 bytes to `data + i * 8`. -/
def fillWords (ctx : Ctx) (data : List Nat) : Nat → Nat → List Nat × Ctx
  | _, 0 => (data, ctx)
  | i, count + 1 =>
    let w := next ctx
    fillWords w.2 (listWrite data (i * 8) (toLEBytes w.1 8)) (i + 1) count

/-- Source `get_random(ctx, data, num_bytes)`: copy `num_bytes / 8` generator
words into the buffer in order; if `num_bytes` is not a multiple of 8,
draw one extra word and `memcpy(data, &word, num_bytes_remaining)` —
the source copies it to offset 0, not to the buffer's tail. -/
def get_random (ctx : Ctx) (data : List Nat) (numBytes : Nat) : List Nat × Ctx :=
  let numWords := numBytes / 8
  let filled := fillWords ctx data 0 numWords
  let rem := numBytes - numWords * 8
  if rem > 0 then
    let w := next filled.2
    (listWrite filled.1 0 (toLEBytes w.1 rem), w.2)
  else filled

/-- A concrete generator state for witnesses: `s[i] = i + 1`, `p = 0`. -/
def witnessCtx : Ctx := ⟨fun i => i + 1, 0⟩

end Xorshift

/-! ## Cipher engine lemmas -/

namespace Sparx64

theorem rotl16_lt (x n : Nat) : rotl16 x n < 65536 := Nat.mod_lt _ (by norm_num)

theorem rotr16_lt (x n : Nat) : rotr16 x n < 65536 := Nat.mod_lt _ (by norm_num)

theorem add16_lt (a b : Nat) : add16 a b < 65536 := Nat.mod_lt _ (by norm_num)

theorem lor_eq_add_of_lt {b i : Nat} (hb : b < 2 ^ i) (a : Nat) :
    (2 ^ i * a) ||| b = 2 ^ i * a + b :=
  (Nat.mul_add_lt_is_or hb a).symm

theorem xor_lt_65536 {a b : Nat} (ha : a < 65536) (hb : b < 65536) :
    a ^^^ b < 65536 := by
  have h := Nat.xor_lt_two_pow (n := 16) (x := a) (y := b)
  norm_num at h
  exact h ha hb

theorem rotl16_two_eq (x : Nat) (hx : x < 65536) :
    rotl16 x 2 = (4 * x + x / 16384) % 65536 := by
  have hb : x / 16384 < 2 ^ 2 := by omega
  have h1 : x <<< 2 = 2 ^ 2 * x := by rw [Nat.shiftLeft_eq]; ring
  have h2 : x >>> 14 = x / 16384 := by rw [Nat.shiftRight_eq_div_pow]
  unfold rotl16
  rw [show (16 - 2) = 14 from rfl, h1, h2, lor_eq_add_of_lt hb]
  ring_nf

theorem rotr16_two_eq (y : Nat) (hy : y < 65536) :
    rotr16 y 2 = (16384 * y + y / 4) % 65536 := by
  have hb : y / 4 < 2 ^ 14 := by omega
  have h1 : y <<< 14 = 2 ^ 14 * y := by rw [Nat.shiftLeft_eq]; ring
  have h2 : y >>> 2 = y / 4 := by rw [Nat.shiftRight_eq_div_pow]
  unfold rotr16
  rw [show (16 - 2) = 14 from rfl, h1, h2, Nat.lor_comm, lor_eq_add_of_lt hb]
  ring_nf

theorem rotr_rotl_2 (x : Nat) (hx : x < 65536) : rotr16 (rotl16 x 2) 2 = x := by
  rw [rotl16_two_eq x hx, rotr16_two_eq _ (Nat.mod_lt _ (by norm_num))]
  obtain ⟨a, b, ha, hb, rfl⟩ :
      ∃ a b, a < 16384 ∧ b < 4 ∧ x = 16384 * b + a :=
    ⟨x % 16384, x / 16384, by omega, by omega, by omega⟩
  have he : (16384 * b + a) / 16384 = b := by omega
  rw [he]
  have h1 : (4 * (16384 * b + a) + b) % 65536 = 4 * a + b := by omega
  rw [h1]
  have h2 : (4 * a + b) / 4 = a := by omega
  rw [h2]
  omega

theorem rotr16_seven_eq (x : Nat) (hx : x < 65536) :
    rotr16 x 7 = (512 * x + x / 128) % 65536 := by
  have hb : x / 128 < 2 ^ 9 := by omega
  have h1 : x <<< 9 = 2 ^ 9 * x := by rw [Nat.shiftLeft_eq]; ring
  have h2 : x >>> 7 = x / 128 := by rw [Nat.shiftRight_eq_div_pow]
  unfold rotr16
  rw [show (16 - 7) = 9 from rfl, h1, h2, Nat.lor_comm, lor_eq_add_of_lt hb]
  ring_nf

theorem rotl16_seven_eq (y : Nat) (hy : y < 65536) :
    rotl16 y 7 = (128 * y + y / 512) % 65536 := by
  have hb : y / 512 < 2 ^ 7 := by omega
  have h1 : y <<< 7 = 2 ^ 7 * y := by rw [Nat.shiftLeft_eq]; ring
  have h2 : y >>> 9 = y / 512 := by rw [Nat.shiftRight_eq_div_pow]
  unfold rotl16
  rw [show (16 - 7) = 9 from rfl, h1, h2, lor_eq_add_of_lt hb]
  ring_nf

theorem rotl_rotr_7 (x : Nat) (hx : x < 65536) : rotl16 (rotr16 x 7) 7 = x := by
  rw [rotr16_seven_eq x hx, rotl16_seven_eq _ (Nat.mod_lt _ (by norm_num))]
  obtain ⟨c, d, hc, hd, rfl⟩ :
      ∃ c d, c < 128 ∧ d < 512 ∧ x = 128 * d + c :=
    ⟨x % 128, x / 128, by omega, by omega, by omega⟩
  have he : (128 * d + c) / 128 = d := by omega
  rw [he]
  have h1 : (512 * (128 * d + c) + d) % 65536 = 512 * c + d := by omega
  rw [h1]
  have h2 : (512 * c + d) / 512 = c := by omega
  rw [h2]
  omega

theorem sub16_add16 {a b : Nat} (ha : a < 65536) (hb : b < 65536) :
    sub16 (add16 a b) b = a := by
  unfold sub16 add16
  omega

theorem A_fst_lt (l r : Nat) : (A l r).1 < 65536 := add16_lt _ _

theorem A_snd_lt (l r : Nat) : (A l r).2 < 65536 :=
  xor_lt_65536 (rotl16_lt _ _) (add16_lt _ _)

theorem A_inverse_A {l r : Nat} (hl : l < 65536) (hr : r < 65536) :
    A_inverse (A l r).1 (A l r).2 = (l, r) := by
  simp only [A, A_inverse]
  rw [Nat.xor_cancel_right, rotr_rotl_2 r hr,
    sub16_add16 (rotr16_lt l 7) hr, rotl_rotr_7 l hl]

theorem L2_inverse_L2 (s : Word4) : L2_inverse (L2 s) = s := by
  simp [L2, L2_inverse, Nat.xor_cancel_right]

theorem whiten_whiten (ctx : SparxCtx) (st : Word4) :
    whiten ctx (whiten ctx st) = st := by
  simp [whiten, Nat.xor_cancel_right]

theorem encRound_fst_lt (ctx : SparxCtx) (row r : Nat) (p : Nat × Nat) :
    (encRound ctx row r p).1 < 65536 := A_fst_lt _ _

theorem encRound_snd_lt (ctx : SparxCtx) (row r : Nat) (p : Nat × Nat) :
    (encRound ctx row r p).2 < 65536 := A_snd_lt _ _

theorem decRound_encRound (ctx : SparxCtx) (hctx : ctx.Bounded) (row r : Nat)
    (p : Nat × Nat) (h1 : p.1 < 65536) (h2 : p.2 < 65536) :
    decRound ctx row r (encRound ctx row r p) = p := by
  simp only [encRound, decRound]
  rw [A_inverse_A (xor_lt_65536 h1 (hctx _ _)) (xor_lt_65536 h2 (hctx _ _))]
  simp [Nat.xor_cancel_right]

theorem foldr_dec_foldl_enc (ctx : SparxCtx) (hctx : ctx.Bounded) (row : Nat) :
    ∀ (rs : List Nat) (p : Nat × Nat), p.1 < 65536 → p.2 < 65536 →
      rs.foldr (fun r q => decRound ctx row r q)
        (rs.foldl (fun q r => encRound ctx row r q) p) = p := by
  intro rs
  induction rs with
  | nil => intro p _ _; rfl
  | cons r rest ih =>
    intro p h1 h2
    simp only [List.foldl_cons, List.foldr_cons]
    rw [ih (encRound ctx row r p) (encRound_fst_lt ctx row r p)
      (encRound_snd_lt ctx row r p)]
    exact decRound_encRound ctx hctx row r p h1 h2

theorem foldl_enc_fst_lt (ctx : SparxCtx) (row : Nat) :
    ∀ (rs : List Nat) (p : Nat × Nat), p.1 < 65536 → p.2 < 65536 →
      (rs.foldl (fun q r => encRound ctx row r q) p).1 < 65536 := by
  intro rs
  induction rs with
  | nil => intro p h1 _; exact h1
  | cons r rest ih =>
    intro p h1 h2
    exact ih _ (encRound_fst_lt ctx row r p) (encRound_snd_lt ctx row r p)

theorem foldl_enc_snd_lt (ctx : SparxCtx) (row : Nat) :
    ∀ (rs : List Nat) (p : Nat × Nat), p.1 < 65536 → p.2 < 65536 →
      (rs.foldl (fun q r => encRound ctx row r q) p).2 < 65536 := by
  intro rs
  induction rs with
  | nil => intro p _ h2; exact h2
  | cons r rest ih =>
    intro p h1 h2
    exact ih _ (encRound_fst_lt ctx row r p) (encRound_snd_lt ctx row r p)

end Sparx64

namespace Sparx64

theorem stepEncRounds_bounded (ctx : SparxCtx) (s : Nat) (st : Word4)
    (hst : st.Bounded) : (stepEncRounds ctx s st).Bounded := by
  obtain ⟨h0, h1, h2, h3⟩ := hst
  exact ⟨foldl_enc_fst_lt ctx (s * 2) (List.range 3) (st.x0, st.x1) h0 h1,
    foldl_enc_snd_lt ctx (s * 2) (List.range 3) (st.x0, st.x1) h0 h1,
    foldl_enc_fst_lt ctx (s * 2 + 1) (List.range 3) (st.x2, st.x3) h2 h3,
    foldl_enc_snd_lt ctx (s * 2 + 1) (List.range 3) (st.x2, st.x3) h2 h3⟩

theorem L2_bounded (s : Word4) (hs : s.Bounded) : (L2 s).Bounded := by
  obtain ⟨h0, h1, h2, h3⟩ := hs
  exact ⟨xor_lt_65536 h2 (xor_lt_65536 h0 (rotl16_lt _ _)),
    xor_lt_65536 h3 (xor_lt_65536 h1 (rotl16_lt _ _)), h0, h1⟩

theorem stepEnc_bounded (ctx : SparxCtx) (s : Nat) (st : Word4)
    (hst : st.Bounded) : (stepEnc ctx s st).Bounded :=
  L2_bounded _ (stepEncRounds_bounded ctx s st hst)

theorem whiten_bounded (ctx : SparxCtx) (hctx : ctx.Bounded) (st : Word4)
    (hst : st.Bounded) : (whiten ctx st).Bounded := by
  obtain ⟨h0, h1, h2, h3⟩ := hst
  exact ⟨xor_lt_65536 h0 (hctx _ _), xor_lt_65536 h1 (hctx _ _),
    xor_lt_65536 h2 (hctx _ _), xor_lt_65536 h3 (hctx _ _)⟩

theorem stepDec_stepEnc (ctx : SparxCtx) (hctx : ctx.Bounded) (s : Nat)
    (st : Word4) (hst : st.Bounded) : stepDec ctx s (stepEnc ctx s st) = st := by
  obtain ⟨h0, h1, h2, h3⟩ := hst
  simp only [stepEnc, stepDec, L2_inverse_L2, stepEncRounds, Prod.mk.eta]
  rw [foldr_dec_foldl_enc ctx hctx (s * 2) (List.range 3) (st.x0, st.x1) h0 h1,
    foldr_dec_foldl_enc ctx hctx (s * 2 + 1) (List.range 3) (st.x2, st.x3) h2 h3]

theorem foldr_stepDec_foldl_stepEnc (ctx : SparxCtx) (hctx : ctx.Bounded) :
    ∀ (ss : List Nat) (st : Word4), st.Bounded →
      ss.foldr (fun s x => stepDec ctx s x)
        (ss.foldl (fun x s => stepEnc ctx s x) st) = st := by
  intro ss
  induction ss with
  | nil => intro st _; rfl
  | cons s rest ih =>
    intro st hst
    simp only [List.foldl_cons, List.foldr_cons]
    rw [ih (stepEnc ctx s st) (stepEnc_bounded ctx s st hst)]
    exact stepDec_stepEnc ctx hctx s st hst

theorem zeroCtx_bounded : zeroCtx.Bounded := by
  intro i j
  norm_num [zeroCtx]

end Sparx64

/-! ## Claim theorems C1 - C5 -/

namespace Sparx64

/-- C1: for every 4-word state, every expanded key and every step range
`1 ≤ s1 ≤ s2 ≤ 8`, step-indexed decryption undoes step-indexed encryption,
including the terminal-whitening handling when `s2` equals the cipher's
total step count. -/
theorem claim1_steps_roundtrip (ctx : SparxCtx) (st : Word4) (fromS toS : Nat)
    (hctx : ctx.Bounded) (hst : st.Bounded)
    (h1 : 1 ≤ fromS) (hle : fromS ≤ toS) (h8 : toS ≤ 8) :
    sparx_decrypt_steps ctx (sparx_encrypt_steps ctx st fromS toS) fromS toS = st := by
  by_cases he : toS = 8
  · simp only [sparx_encrypt_steps, sparx_decrypt_steps, encStepsCore,
      if_pos he, whiten_whiten]
    exact foldr_stepDec_foldl_stepEnc ctx hctx _ st hst
  · simp only [sparx_encrypt_steps, sparx_decrypt_steps, encStepsCore, if_neg he]
    exact foldr_stepDec_foldl_stepEnc ctx hctx _ st hst

/-- Witness for C1 at a concrete context, state and step range. -/
theorem claim1_witness :
    sparx_decrypt_steps zeroCtx
      (sparx_encrypt_steps zeroCtx ⟨1, 2, 3, 4⟩ 2 8) 2 8 = ⟨1, 2, 3, 4⟩ :=
  claim1_steps_roundtrip zeroCtx ⟨1, 2, 3, 4⟩ 2 8 zeroCtx_bounded
    (by decide) (by norm_num) (by norm_num) (by norm_num)

/-- C2 (counterexample): the source `sparx_encrypt_steps` disagrees with the
spec-modelled variant (no linear layer after the final step when
`to_step = 8`) already at a concrete context and state: the code applies
`L` after every step of the range, including step 8, before the whitening. -/
theorem claim2_counterexample :
    sparx_encrypt_steps zeroCtx ⟨1, 2, 3, 4⟩ 1 8 ≠
      sparx_encrypt_steps_specC2 zeroCtx ⟨1, 2, 3, 4⟩ 1 8 := by
  decide

/-- C2 (amended): in step-indexed encryption the linear layer `L` is applied
after every step of the range, *including* the final step even when that
step is the cipher's last one; when the range ends at the total step count
(`to_step = 8`) the terminal whitening is additionally XORed after that
final `L` application. -/
theorem claim2_amended (ctx : SparxCtx) (st : Word4) (fromS toS : Nat)
    (h1 : 1 ≤ fromS) (hle : fromS ≤ toS) (h8 : toS ≤ 8) :
    sparx_encrypt_steps ctx st fromS toS =
      if toS = 8 then
        whiten ctx (L2 (stepEncRounds ctx (toS - 1)
          (encStepsCore ctx st fromS (toS - 1))))
      else
        L2 (stepEncRounds ctx (toS - 1) (encStepsCore ctx st fromS (toS - 1))) := by
  have hn : toS - (fromS - 1) = (toS - 1 - (fromS - 1)) + 1 := by omega
  have hidx : fromS - 1 + (toS - 1 - (fromS - 1)) = toS - 1 := by omega
  have hcore : encStepsCore ctx st fromS toS =
      stepEnc ctx (toS - 1) (encStepsCore ctx st fromS (toS - 1)) := by
    unfold encStepsCore
    rw [hn, List.range'_1_concat, hidx, List.foldl_append]
    rfl
  unfold sparx_encrypt_steps
  rw [hcore]
  rfl

/-- Witness for the amended C2 at a concrete context, state and range. -/
theorem claim2_witness :
    sparx_encrypt_steps zeroCtx ⟨1, 2, 3, 4⟩ 2 5 =
      if 5 = 8 then
        whiten zeroCtx (L2 (stepEncRounds zeroCtx 4
          (encStepsCore zeroCtx ⟨1, 2, 3, 4⟩ 2 4)))
      else
        L2 (stepEncRounds zeroCtx 4 (encStepsCore zeroCtx ⟨1, 2, 3, 4⟩ 2 4)) :=
  claim2_amended zeroCtx ⟨1, 2, 3, 4⟩ 2 5 (by norm_num) (by norm_num) (by norm_num)

/-- C3: the key schedule of the fixed test master key produces exactly the
documented 17-group subkey sequence; full 8-step encryption of the test
plaintext yields the documented ciphertext, and full decryption of that
ciphertext restores the plaintext. -/
theorem claim3_test_vectors :
    sparx_key_schedule testKey = expectedExpandedKeys ∧
    sparx_encrypt testCtx testPlaintext = testCiphertext ∧
    sparx_decrypt testCtx testCiphertext = testPlaintext :=
  ⟨by decide, by decide, by decide⟩

/-- C4 (counterexample): the round-indexed round trip fails at
`r1 = r2 = 1`; the unsigned reverse loop of `sparx_decrypt_rounds` never
terminates for `from_round = 1` (modelled as `none`), so decryption does
not return the original state. -/
theorem claim4_counterexample :
    sparx_decrypt_rounds zeroCtx
      (sparx_encrypt_rounds zeroCtx ⟨1, 2, 3, 4⟩ 1 1) 1 1 ≠
      some ⟨1, 2, 3, 4⟩ := by
  decide

/-- C4 (amended): for every state, every bounded expanded key and every round
range with `2 ≤ r1 ≤ r2`, round-indexed decryption undoes round-indexed
encryption: for `r1 = 1` the decryption loop does not terminate. -/
theorem claim4_amended (ctx : SparxCtx) (st : Word4) (fromR toR : Nat)
    (hctx : ctx.Bounded) (hst : st.Bounded) (h2 : 2 ≤ fromR) (hle : fromR ≤ toR) :
    sparx_decrypt_rounds ctx (sparx_encrypt_rounds ctx st fromR toR) fromR toR =
      some st := by
  obtain ⟨h0, h1, h2b, h3⟩ := hst
  simp only [sparx_encrypt_rounds, sparx_decrypt_rounds,
    if_neg (show ¬fromR < 2 by omega), Prod.mk.eta]
  rw [foldr_dec_foldl_enc ctx hctx (fromR / 3 * 2) _ (st.x0, st.x1) h0 h1,
    foldr_dec_foldl_enc ctx hctx (fromR / 3 * 2 + 1) _ (st.x2, st.x3) h2b h3]

/-- Witness for the amended C4 at a concrete context, state and range. -/
theorem claim4_witness :
    sparx_decrypt_rounds zeroCtx
      (sparx_encrypt_rounds zeroCtx ⟨1, 2, 3, 4⟩ 2 5) 2 5 = some ⟨1, 2, 3, 4⟩ :=
  claim4_amended zeroCtx ⟨1, 2, 3, 4⟩ 2 5 zeroCtx_bounded (by decide)
    (by norm_num) (by norm_num)

/-- C5: evaluation of the embedded `sparx_decrypt_rounds` at the failing
input `from_round = 1`: the unsigned reverse round loop
(`for (size_t r = to_round - 1; r >= from_round - 1; --r)`) never exits,
so neither an iteration count nor a result exists (both are `none`),
contradicting the claimed `to_round - from_round + 1` iterations. -/
theorem claim5_divergence :
    sparx_decrypt_rounds_iterations 1 1 = none ∧
    sparx_decrypt_rounds zeroCtx ⟨0, 0, 0, 0⟩ 1 1 = none :=
  ⟨rfl, rfl⟩

end Sparx64

/-! ## Key-schedule structure (C6) -/

namespace Sparx64

theorem keyRegisterFrom_succ :
    ∀ (i : Nat) (k : KeyReg) (c : Nat),
      keyRegisterFrom k c (i + 1) =
        K_perm_64_128 (keyRegisterFrom k c i) (c + i + 1) := by
  intro i
  induction i with
  | zero => intro k c; rfl
  | succ i ih =>
    intro k c
    show keyRegisterFrom (K_perm_64_128 k (c + 1)) (c + 1) (i + 1) = _
    rw [ih (K_perm_64_128 k (c + 1)) (c + 1),
      show c + (i + 1) + 1 = c + 1 + i + 1 from by omega]
    rfl

theorem keyRegisterFrom_zero_eq_iter (mk : KeyReg) :
    ∀ i, keyRegisterFrom mk 0 i = keyRegisterIter mk i := by
  intro i
  induction i with
  | zero => rfl
  | succ i ih =>
    rw [keyRegisterFrom_succ i mk 0, ih]
    simp [keyRegisterIter]

theorem scheduleFrom_length : ∀ (n : Nat) (k : KeyReg) (c : Nat),
    (scheduleFrom k c n).length = n := by
  intro n
  induction n with
  | zero => intro k c; rfl
  | succ n ih =>
    intro k c
    show (firstSix k :: scheduleFrom (K_perm_64_128 k (c + 1)) (c + 1) n).length = n + 1
    simp [ih]

theorem scheduleFrom_getD : ∀ (n : Nat) (k : KeyReg) (c i : Nat), i < n →
    (scheduleFrom k c n).getD i [] = firstSix (keyRegisterFrom k c i) := by
  intro n
  induction n with
  | zero => intro k c i hi; omega
  | succ n ih =>
    intro k c i hi
    cases i with
    | zero => rfl
    | succ i =>
      show (scheduleFrom (K_perm_64_128 k (c + 1)) (c + 1) n).getD i [] = _
      exact ih (K_perm_64_128 k (c + 1)) (c + 1) i (by omega)

/-- C6: for every 128-bit master key, the key schedule produces exactly
`branches * steps + 1 = 17` groups of `2 * 3 = 6` words; group 0 is the
first six words of the master-key register and, for `1 ≤ i ≤ 16`, group `i`
is the first six words of the register obtained from the register that
produced group `i - 1` by one application of the key permutation with round
counter `i`; the key permutation itself is the Misty-like transform `A` on
words 0-1, the modular addition of words 0-1 into words 2-3 and of the
round counter into word 7, followed by the cyclic rotation of the 8-word
register by two positions. -/
theorem claim6_key_schedule (mk k : KeyReg) (r i : Nat) (hi : i < 17) :
    (sparx_key_schedule mk).length = 17 ∧
    (sparx_key_schedule mk).getD 0 [] = firstSix mk ∧
    (1 ≤ i → (sparx_key_schedule mk).getD i [] =
      firstSix (K_perm_64_128 (keyRegisterIter mk (i - 1)) i)) ∧
    K_perm_64_128 k r = keyRotate2 (keyMix k r) := by
  refine ⟨scheduleFrom_length 17 mk 0, rfl, ?_, rfl⟩
  intro h1
  obtain ⟨j, rfl⟩ : ∃ j, i = j + 1 := ⟨i - 1, by omega⟩
  rw [show (sparx_key_schedule mk) = scheduleFrom mk 0 17 from rfl,
    scheduleFrom_getD 17 mk 0 (j + 1) hi, keyRegisterFrom_zero_eq_iter mk (j + 1)]
  simp [keyRegisterIter]

/-- Witness for C6 at the test-vector master key and a concrete group. -/
theorem claim6_witness :
    (sparx_key_schedule testKey).length = 17 ∧
    (sparx_key_schedule testKey).getD 0 [] = firstSix testKey ∧
    (1 ≤ 5 → (sparx_key_schedule testKey).getD 5 [] =
      firstSix (K_perm_64_128 (keyRegisterIter testKey 4) 5)) ∧
    K_perm_64_128 testKey 3 = keyRotate2 (keyMix testKey 3) :=
  claim6_key_schedule testKey testKey 3 5 (by norm_num)

end Sparx64

/-! ## Worker chunking (C7) -/

namespace Harness

theorem countRange_append (pred : Nat → Bool) (a b c : Nat)
    (hab : a ≤ b) (hbc : b ≤ c) :
    countRange pred a b + countRange pred b c = countRange pred a c := by
  obtain ⟨m, rfl⟩ : ∃ m, b = a + m := ⟨b - a, by omega⟩
  obtain ⟨n, rfl⟩ : ∃ n, c = a + m + n := ⟨c - (a + m), by omega⟩
  unfold countRange
  rw [show a + m - a = m from by omega, show a + m + n - (a + m) = n from by omega,
    show a + m + n - a = m + n from by omega]
  rw [← List.countP_append, List.range'_append_1, Nat.add_comm n m]

theorem chunk_partial (P W : Nat) (pred : Nat → Bool) :
    ∀ k, k < W →
      (List.range k).foldl
        (fun acc i => acc + countRange pred (chunk_from P W i) (chunk_to P W i)) 0 =
      countRange pred 0 (k * (P / W)) := by
  intro k
  induction k with
  | zero => intro _; simp [countRange]
  | succ k ih =>
    intro hk
    rw [List.range_succ, List.foldl_append, ih (by omega)]
    simp only [List.foldl_cons, List.foldl_nil]
    have hto : chunk_to P W k = (k + 1) * (P / W) := by
      unfold chunk_to
      rw [if_neg (by omega)]
    rw [hto, show chunk_from P W k = k * (P / W) from rfl]
    exact countRange_append pred 0 (k * (P / W)) ((k + 1) * (P / W))
      (by omega) (Nat.mul_le_mul_right _ (by omega))

/-- C7: for every trial count `P` and worker count `W ≥ 1`, the harness's
chunking (`chunk i = [i * (P / W), (i+1) * (P / W))` for `i < W - 1`, the
last chunk extending to `P`) yields contiguous ranges starting at 0 and
ending at `P`, each non-empty-or-forward; consequently, for any fixed
per-index match predicate the aggregated match counter equals the number of
matching indices in `[0, P)`, independent of `W`. -/
theorem claim7_chunking (P W : Nat) (pred : Nat → Bool) (i j : Nat)
    (hW : 1 ≤ W) :
    chunk_from P W 0 = 0 ∧
    (i + 1 < W → chunk_to P W i = chunk_from P W (i + 1)) ∧
    (j < W → chunk_from P W j ≤ chunk_to P W j) ∧
    chunk_to P W (W - 1) = P ∧
    totalCount pred P W = countRange pred 0 P := by
  obtain ⟨V, rfl⟩ : ∃ V, W = V + 1 := ⟨W - 1, by omega⟩
  refine ⟨by simp [chunk_from], ?_, ?_, ?_, ?_⟩
  · intro hiW
    unfold chunk_to chunk_from
    rw [if_neg (by omega)]
  · intro hjW
    unfold chunk_to chunk_from
    by_cases hj : j + 1 = V + 1
    · rw [if_pos hj]
      have hj2 : j = V := by omega
      subst hj2
      calc j * (P / (j + 1)) ≤ (j + 1) * (P / (j + 1)) :=
            Nat.mul_le_mul_right _ (by omega)
        _ = P / (j + 1) * (j + 1) := Nat.mul_comm _ _
        _ ≤ P := Nat.div_mul_le_self P (j + 1)
    · rw [if_neg hj]
      exact Nat.mul_le_mul_right _ (by omega)
  · unfold chunk_to
    rw [show V + 1 - 1 = V from by omega, if_pos rfl]
  · unfold totalCount
    rw [List.range_succ, List.foldl_append, chunk_partial P (V + 1) pred V (by omega)]
    simp only [List.foldl_cons, List.foldl_nil]
    have hto : chunk_to P (V + 1) V = P := by
      unfold chunk_to
      rw [if_pos rfl]
    rw [hto, show chunk_from P (V + 1) V = V * (P / (V + 1)) from rfl]
    refine countRange_append pred 0 (V * (P / (V + 1))) P (by omega) ?_
    calc V * (P / (V + 1)) ≤ (V + 1) * (P / (V + 1)) :=
          Nat.mul_le_mul_right _ (by omega)
      _ = P / (V + 1) * (V + 1) := Nat.mul_comm _ _
      _ ≤ P := Nat.div_mul_le_self P (V + 1)

/-- Witness for C7 at concrete trial count, worker count and predicate. -/
theorem claim7_witness :
    chunk_from 10 3 0 = 0 ∧
    (1 + 1 < 3 → chunk_to 10 3 1 = chunk_from 10 3 (1 + 1)) ∧
    (2 < 3 → chunk_from 10 3 2 ≤ chunk_to 10 3 2) ∧
    chunk_to 10 3 (3 - 1) = 10 ∧
    totalCount (fun n => n % 3 == 0) 10 3 =
      countRange (fun n => n % 3 == 0) 0 10 :=
  claim7_chunking 10 3 (fun n => n % 3 == 0) 1 2 (by norm_num)

end Harness

/-! ## Match predicate of the multi-step backward experiment (C8) -/

namespace CheckDiff

theorem xor_shiftRight_32 (a b : Nat) :
    (a >>> 32) ^^^ (b >>> 32) = (a ^^^ b) >>> 32 := by
  apply Nat.eq_of_testBit_eq
  intro t
  simp [Nat.testBit_xor, Nat.testBit_shiftRight]

theorem shiftRight_32_lt {a : Nat} (h : a < 2 ^ 64) : a >>> 32 < 2 ^ 32 := by
  rw [Nat.shiftRight_eq_div_pow]
  omega

/-- C8: the intended match predicate `check_difference` is a total function
of the two 64-bit values which returns `true` exactly when the high 32 bits
of `c1 XOR c2` equal `delta_l` and the low 32 bits equal `delta_r`.
(The C code instead reinterprets the halves of the two values as pointers
and dereferences them; this theorem is about the spec-described pure
predicate `CheckDiff.check_difference`.) -/
theorem claim8_check_difference (c1 c2 dl dr : Nat)
    (h1 : c1 < 2 ^ 64) (h2 : c2 < 2 ^ 64) :
    check_difference c1 c2 dl dr = true ↔
      ((c1 ^^^ c2) >>> 32 = dl ∧ (c1 ^^^ c2) % 2 ^ 32 = dr) := by
  unfold check_difference
  simp only [Bool.and_eq_true, beq_iff_eq]
  have hlow : (c1 &&& 0xFFFFFFFF) ^^^ (c2 &&& 0xFFFFFFFF) = (c1 ^^^ c2) % 2 ^ 32 := by
    rw [← Nat.and_xor_distrib_right]
    have h := Nat.and_pow_two_sub_one_eq_mod (c1 ^^^ c2) 32
    norm_num at h
    norm_num [h]
  have hh1 : (c1 >>> 32) &&& 0xFFFFFFFF = c1 >>> 32 := by
    have h := Nat.and_pow_two_sub_one_of_lt_two_pow (shiftRight_32_lt h1)
    norm_num at h
    norm_num [h]
  have hh2 : (c2 >>> 32) &&& 0xFFFFFFFF = c2 >>> 32 := by
    have h := Nat.and_pow_two_sub_one_of_lt_two_pow (shiftRight_32_lt h2)
    norm_num at h
    norm_num [h]
  rw [hlow, hh1, hh2, xor_shiftRight_32]
  exact ⟨fun h => ⟨h.2, h.1⟩, fun h => ⟨h.2, h.1⟩⟩

/-- Witness for C8 at concrete 64-bit inputs. -/
theorem claim8_witness :
    check_difference 8589934597 1 2 4 = true ↔
      ((8589934597 ^^^ 1) >>> 32 = 2 ∧ (8589934597 ^^^ 1) % 2 ^ 32 = 4) :=
  claim8_check_difference 8589934597 1 2 4 (by norm_num) (by norm_num)

end CheckDiff

/-! ## Bitmask state iterator (C9) -/

namespace StateIter

theorem bitsOfByte_sorted (b : Nat) : (bitsOfByte b).Pairwise (· < ·) :=
  (List.pairwise_lt_range 8).sublist (List.filter_sublist _)

theorem bitsOfByte_lt {b j : Nat} (h : j ∈ bitsOfByte b) : j < 8 := by
  have := List.mem_range.mp (List.mem_of_mem_filter h)
  exact this

theorem shiftIndicesGo_mem :
    ∀ (l : List Nat) (t q : Nat), q ∈ shiftIndicesGo l t →
      8 * t ≤ q ∧ q < 8 * (t + l.length) := by
  intro l
  induction l with
  | nil => intro t q h; simp [shiftIndicesGo] at h
  | cons b rest ih =>
    intro t q h
    simp only [shiftIndicesGo, List.mem_append, List.mem_map] at h
    rcases h with ⟨j, hj, rfl⟩ | h
    · have hj8 := bitsOfByte_lt hj
      constructor
      · omega
      · simp only [List.length_cons]
        omega
    · have := ih (t + 1) q h
      constructor
      · omega
      · simp only [List.length_cons]
        omega

theorem shiftIndicesGo_sorted :
    ∀ (l : List Nat) (t : Nat), (shiftIndicesGo l t).Pairwise (· < ·) := by
  intro l
  induction l with
  | nil => intro t; exact List.Pairwise.nil
  | cons b rest ih =>
    intro t
    rw [shiftIndicesGo, List.pairwise_append]
    refine ⟨(bitsOfByte_sorted b).map _ (fun a c hac => by omega), ih (t + 1), ?_⟩
    intro q hq q2 hq2
    obtain ⟨j, hj, rfl⟩ := List.mem_map.mp hq
    have hj8 := bitsOfByte_lt hj
    have := (shiftIndicesGo_mem rest (t + 1) q2 hq2).1
    omega

theorem shiftIndicesGo_length :
    ∀ (l : List Nat) (t : Nat),
      (shiftIndicesGo l t).length = (l.map byteWeight).sum := by
  intro l
  induction l with
  | nil => intro t; rfl
  | cons b rest ih =>
    intro t
    simp [shiftIndicesGo, byteWeight, ih (t + 1)]

theorem find_shift_indices_sorted (mask : List Nat) :
    (find_shift_indices mask).Pairwise (· < ·) :=
  shiftIndicesGo_sorted mask.reverse 0

theorem find_shift_indices_length (mask : List Nat) :
    (find_shift_indices mask).length = find_hamming_weight mask := by
  unfold find_shift_indices find_hamming_weight
  rw [shiftIndicesGo_length mask.reverse 0, List.map_reverse, List.sum_reverse]

theorem spread_dvd {p : Nat} :
    ∀ (ps : List Nat), (∀ q ∈ ps, p < q) → ∀ idx, 2 ^ (p + 1) ∣ spread ps idx := by
  intro ps
  induction ps with
  | nil => intro _ idx; exact Dvd.intro 0 rfl
  | cons q rest ih =>
    intro h idx
    have hq : p < q := h q (by simp)
    refine Nat.dvd_add (Dvd.dvd.mul_left ?_ _) (ih (fun x hx => h x (by simp [hx])) (idx / 2))
    exact Nat.pow_dvd_pow 2 (by omega)

theorem spread_strictMono :
    ∀ (ps : List Nat), ps.Pairwise (· < ·) →
      ∀ i j, i < j → j < 2 ^ ps.length → spread ps i < spread ps j := by
  intro ps
  induction ps with
  | nil =>
    intro _ i j hij hj
    simp at hj
    omega
  | cons p rest ih =>
    intro hp i j hij hj
    have hhead : ∀ q ∈ rest, p < q := fun q hq => (List.pairwise_cons.mp hp).1 q hq
    have hrest : rest.Pairwise (· < ·) := (List.pairwise_cons.mp hp).2
    have hpow : (2 : Nat) ^ (rest.length + 1) = 2 * 2 ^ rest.length := by ring
    simp only [List.length_cons] at hj
    have hcase : i / 2 < j / 2 ∨ (i / 2 = j / 2 ∧ i % 2 < j % 2) := by omega
    simp only [spread]
    rcases hcase with hlt | ⟨heq, hmod⟩
    · have hjh : j / 2 < 2 ^ rest.length := by omega
      have hS := ih hrest (i / 2) (j / 2) hlt hjh
      obtain ⟨a, ha⟩ := spread_dvd rest hhead (i / 2)
      obtain ⟨b, hb⟩ := spread_dvd rest hhead (j / 2)
      have hpow2 : (2 : Nat) ^ (p + 1) = 2 * 2 ^ p := by ring
      have hppos : 0 < 2 ^ p := Nat.pos_pow_of_pos p (by omega)
      rw [ha, hb] at hS ⊢
      have hab : a < b := Nat.lt_of_mul_lt_mul_left hS
      have hstep : 2 ^ (p + 1) * a + 2 ^ (p + 1) ≤ 2 ^ (p + 1) * b := by
        calc 2 ^ (p + 1) * a + 2 ^ (p + 1) = 2 ^ (p + 1) * (a + 1) := by ring
          _ ≤ 2 ^ (p + 1) * b := Nat.mul_le_mul_left _ (by omega)
      have h4 : i % 2 * 2 ^ p ≤ 1 * 2 ^ p := Nat.mul_le_mul_right _ (by omega)
      rw [Nat.one_mul] at h4
      omega
    · rw [heq]
      have hppos : 0 < 2 ^ p := Nat.pos_pow_of_pos p (by omega)
      have := (Nat.mul_lt_mul_right hppos).mpr hmod
      omega

end StateIter

namespace StateIter

theorem fold_go :
    ∀ (ps : List Nat) (idx acc : Nat), ps.Pairwise (· < ·) →
      (∀ q ∈ ps, acc < 2 ^ q) →
      (List.range ps.length).foldl
        (fun a i => if idx &&& (1 <<< i) != 0 then a ||| (1 <<< ps.getD i 0) else a)
        acc = acc + spread ps idx := by
  intro ps
  induction ps with
  | nil => intro idx acc _ _; simp [spread]
  | cons p rest ih =>
    intro idx acc hp hacc
    have hhead : ∀ q ∈ rest, p < q := fun q hq => (List.pairwise_cons.mp hp).1 q hq
    have hrest : rest.Pairwise (· < ·) := (List.pairwise_cons.mp hp).2
    have haccp : acc < 2 ^ p := hacc p (by simp)
    simp only [List.length_cons, List.range_succ_eq_map, List.foldl_cons, List.foldl_map]
    have hget0 : (p :: rest).getD 0 0 = p := rfl
    rw [hget0]
    have hcond : ∀ i : Nat,
        (idx &&& (1 <<< (i + 1)) != 0) = ((idx / 2) &&& (1 <<< i) != 0) := by
      intro i
      rw [Nat.one_shiftLeft, Nat.one_shiftLeft, Nat.and_two_pow, Nat.and_two_pow,
        Nat.testBit_succ]
      have e1 : (2 : Nat) ^ (i + 1) ≠ 0 := (Nat.two_pow_pos (i + 1)).ne'
      have e2 : (2 : Nat) ^ i ≠ 0 := (Nat.two_pow_pos i).ne'
      cases (idx / 2).testBit i <;> simp [bne_iff_ne.mpr e1, bne_iff_ne.mpr e2]
    have hfeq : (fun (a i : Nat) =>
          if idx &&& (1 <<< i.succ) != 0 then a ||| (1 <<< (p :: rest).getD i.succ 0)
          else a)
        = (fun (a i : Nat) =>
          if (idx / 2) &&& (1 <<< i) != 0 then a ||| (1 <<< rest.getD i 0) else a) := by
      funext a i
      rw [show i.succ = i + 1 from rfl, hcond i, List.getD_cons_succ]
    rw [hfeq]
    have h_or : acc ||| (1 <<< p) = acc + 2 ^ p := by
      rw [Nat.one_shiftLeft, Nat.lor_comm]
      have h := Sparx64.lor_eq_add_of_lt haccp 1
      rw [Nat.mul_one] at h
      rw [h]
      omega
    have hpow2 : (2 : Nat) ^ (p + 1) = 2 * 2 ^ p := by ring
    have hbnd : ∀ m ≤ acc + 2 ^ p, ∀ q ∈ rest, m < 2 ^ q := by
      intro m hm q hq
      have hpq : p < q := hhead q hq
      have hle : 2 ^ (p + 1) ≤ 2 ^ q := Nat.pow_le_pow_right (by omega) (by omega)
      omega
    rw [show (1 : Nat) <<< 0 = 1 from rfl, Nat.and_one_is_mod]
    by_cases hm : idx % 2 = 0
    · rw [hm]
      simp only [show ((0 : Nat) != 0) = false from rfl, Bool.false_eq_true, if_false]
      rw [ih (idx / 2) acc hrest (hbnd acc (by omega))]
      simp [spread, hm]
    · have hm1 : idx % 2 = 1 := by omega
      rw [hm1]
      simp only [show ((1 : Nat) != 0) = true from rfl, if_true]
      rw [h_or, ih (idx / 2) (acc + 2 ^ p) hrest (hbnd (acc + 2 ^ p) (by omega))]
      simp only [spread, hm1, Nat.one_mul]
      omega

theorem spread_testBit :
    ∀ (ps : List Nat), ps.Pairwise (· < ·) →
      ∀ idx t, (spread ps idx).testBit t = true → t ∈ ps := by
  intro ps
  induction ps with
  | nil => intro _ idx t ht; simp [spread] at ht
  | cons p rest ih =>
    intro hp idx t ht
    have hhead : ∀ q ∈ rest, p < q := fun q hq => (List.pairwise_cons.mp hp).1 q hq
    have hrest : rest.Pairwise (· < ·) := (List.pairwise_cons.mp hp).2
    obtain ⟨R2, hR⟩ := spread_dvd rest hhead (idx / 2)
    have hppos : (0 : Nat) < 2 ^ p := Nat.pos_pow_of_pos p (by omega)
    have hpow2 : (2 : Nat) ^ (p + 1) = 2 * 2 ^ p := by ring
    have hsmall : idx % 2 * 2 ^ p < 2 ^ (p + 1) := by
      have h4 : idx % 2 * 2 ^ p ≤ 1 * 2 ^ p := Nat.mul_le_mul_right _ (by omega)
      rw [Nat.one_mul] at h4
      omega
    rw [show spread (p :: rest) idx = idx % 2 * 2 ^ p + spread rest (idx / 2) from rfl,
      hR, Nat.add_comm, Nat.testBit_mul_pow_two_add R2 hsmall t] at ht
    by_cases hct : t < p + 1
    · rw [if_pos hct] at ht
      by_cases hm : idx % 2 = 0
      · rw [hm] at ht
        simp at ht
      · have hm1 : idx % 2 = 1 := by omega
        rw [hm1, Nat.one_mul, Nat.testBit_two_pow] at ht
        have hpt : p = t := by simpa using ht
        simp [← hpt]
    · rw [if_neg hct] at ht
      have ht2 : (spread rest (idx / 2)).testBit t = true := by
        rw [hR]
        have h0 : (0 : Nat) < 2 ^ (p + 1) := Nat.pos_pow_of_pos _ (by omega)
        have hmt := Nat.testBit_mul_pow_two_add R2 h0 t
        rw [Nat.add_zero] at hmt
        rw [hmt, if_neg hct]
        exact ht
      exact List.mem_cons_of_mem p (ih hrest (idx / 2) t ht2)

end StateIter

namespace StateIter

theorem spread_surj :
    ∀ (ps : List Nat), ps.Pairwise (· < ·) →
      ∀ v, (∀ t, v.testBit t = true → t ∈ ps) →
        ∃ idx, idx < 2 ^ ps.length ∧ spread ps idx = v := by
  intro ps
  induction ps with
  | nil =>
    intro _ v hv
    have hv0 : v = 0 := by
      apply Nat.eq_of_testBit_eq
      intro t
      cases hb : v.testBit t with
      | false => simp
      | true => exact absurd (hv t hb) (by simp)
    exact ⟨0, by norm_num, by simp [spread, hv0]⟩
  | cons p rest ih =>
    intro hp v hv
    have hhead : ∀ q ∈ rest, p < q := fun q hq => (List.pairwise_cons.mp hp).1 q hq
    have hrest : rest.Pairwise (· < ·) := (List.pairwise_cons.mp hp).2
    have hppos : (0 : Nat) < 2 ^ (p + 1) := Nat.two_pow_pos (p + 1)
    have hlow : v % 2 ^ (p + 1) = (if v.testBit p then 2 ^ p else 0) := by
      apply Nat.eq_of_testBit_eq
      intro t
      rw [Nat.testBit_mod_two_pow]
      by_cases h1 : t = p
      · subst h1
        cases hb : v.testBit t <;>
          simp [hb, Nat.testBit_two_pow, Nat.lt_succ_self]
      · have hne : ¬p = t := fun h => h1 h.symm
        cases hb2 : v.testBit t with
        | false =>
          cases v.testBit p <;>
            simp [hb2, Nat.testBit_two_pow, hne]
        | true =>
          have hmem := hv t hb2
          have htp : t ∈ rest := by
            rcases List.mem_cons.mp hmem with h | h
            · exact absurd h h1
            · exact h
          have hpt : p < t := hhead t htp
          cases v.testBit p <;>
            simp [hb2, Nat.testBit_two_pow, show ¬t < p + 1 from by omega,
              show ¬p = t from by omega]
    have hhigh : ∀ t, (2 ^ (p + 1) * (v / 2 ^ (p + 1))).testBit t = true → t ∈ rest := by
      intro t ht
      rw [show 2 ^ (p + 1) * (v / 2 ^ (p + 1)) =
            2 ^ (p + 1) * (v / 2 ^ (p + 1)) + 0 from by omega,
        Nat.testBit_mul_pow_two_add _ hppos t] at ht
      by_cases hct : t < p + 1
      · rw [if_pos hct] at ht
        simp at ht
      · rw [if_neg hct] at ht
        have hdiv : (v / 2 ^ (p + 1)).testBit (t - (p + 1)) = v.testBit t := by
          rw [← Nat.shiftRight_eq_div_pow, Nat.testBit_shiftRight]
          congr 1
          omega
        rw [hdiv] at ht
        rcases List.mem_cons.mp (hv t ht) with h | h
        · omega
        · exact h
    obtain ⟨idx2, hidx2, hsp⟩ := ih hrest (2 ^ (p + 1) * (v / 2 ^ (p + 1))) hhigh
    have hif : (if v.testBit p then 1 else 0) ≤ 1 := by
      cases v.testBit p <;> simp
    refine ⟨(if v.testBit p then 1 else 0) + 2 * idx2, ?_, ?_⟩
    · have hpow : (2 : Nat) ^ (rest.length + 1) = 2 * 2 ^ rest.length := by ring
      simp only [List.length_cons]
      omega
    · have hm2 : ((if v.testBit p then 1 else 0) + 2 * idx2) % 2 =
          (if v.testBit p then 1 else 0) := by
        omega
      have hd2 : ((if v.testBit p then 1 else 0) + 2 * idx2) / 2 = idx2 := by
        omega
      rw [show spread (p :: rest)
            ((if v.testBit p then 1 else 0) + 2 * idx2) =
          ((if v.testBit p then 1 else 0) + 2 * idx2) % 2 * 2 ^ p +
            spread rest (((if v.testBit p then 1 else 0) + 2 * idx2) / 2) from rfl,
        hm2, hd2, hsp]
      have hfirst : (if v.testBit p then 1 else 0) * 2 ^ p = v % 2 ^ (p + 1) := by
        rw [hlow]
        cases v.testBit p <;> simp
      rw [hfirst]
      exact Nat.mod_add_div v (2 ^ (p + 1))

theorem advance_init (mask : List Nat) :
    ∀ m, advance (init mask) m = { init mask with current_state_index := m } := by
  intro m
  induction m with
  | zero => rfl
  | succ m ih =>
    show (nextAsUint64 (advance (init mask) m)).2 = _
    rw [ih]
    rfl

theorem output_eq_spread_aux (mask : List Nat) (m : Nat) :
    output mask m = spread (find_shift_indices mask) m := by
  unfold output nextAsUint64
  rw [advance_init]
  show internalNextAsUint64 _ = _
  unfold internalNextAsUint64
  simp only [init]
  rw [← find_shift_indices_length mask]
  rw [fold_go (find_shift_indices mask) m 0 (find_shift_indices_sorted mask)
    (fun q _ => Nat.two_pow_pos q)]
  omega

end StateIter

namespace StateIter

/-- C9: for a mask of at most 8 bytes with Hamming weight `k < 64`, the
`StateIterator` reports `get_num_states = 2 ^ k`; `has_next` is true after
`i` calls exactly when `i < 2 ^ k`; the first `2 ^ k` outputs are strictly
increasing (hence pairwise distinct); the `i`-th output places the binary
digits of `i` onto the mask's active positions in order of increasing
significance (`spread`); and the set of the first `2 ^ k` outputs is
exactly the set of values whose set bits lie only at the mask's active
positions. -/
theorem claim9_state_iterator (mask : List Nat) (i j v : Nat)
    (hn : mask.length ≤ 8) (hk : find_hamming_weight mask < 64) :
    getNumStates (init mask) = 2 ^ find_hamming_weight mask ∧
    (hasNext (advance (init mask) i) = true ↔ i < 2 ^ find_hamming_weight mask) ∧
    (i < j → j < 2 ^ find_hamming_weight mask → output mask i < output mask j) ∧
    output mask i = spread (find_shift_indices mask) i ∧
    ((∃ m, m < 2 ^ find_hamming_weight mask ∧ output mask m = v) ↔
      (∀ t, v.testBit t = true → t ∈ find_shift_indices mask)) := by
  refine ⟨?_, ?_, ?_, output_eq_spread_aux mask i, ?_, ?_⟩
  · show (1 <<< find_hamming_weight mask) = 2 ^ find_hamming_weight mask
    exact Nat.one_shiftLeft _
  · rw [advance_init]
    show (decide ((init mask).num_states > i)) = true ↔ _
    simp [init, Nat.one_shiftLeft]
  · intro hij hj
    rw [output_eq_spread_aux mask i, output_eq_spread_aux mask j]
    refine spread_strictMono (find_shift_indices mask)
      (find_shift_indices_sorted mask) i j hij ?_
    rw [find_shift_indices_length]
    exact hj
  · rintro ⟨m, hm, rfl⟩ t ht
    rw [output_eq_spread_aux mask m] at ht
    exact spread_testBit (find_shift_indices mask)
      (find_shift_indices_sorted mask) m t ht
  · intro hbits
    obtain ⟨idx, hidx, hsp⟩ := spread_surj (find_shift_indices mask)
      (find_shift_indices_sorted mask) v hbits
    rw [find_shift_indices_length] at hidx
    exact ⟨idx, hidx, by rw [output_eq_spread_aux mask idx]; exact hsp⟩

/-- Witness for C9 at the documentation's example mask `[0x80, 0x41]`. -/
theorem claim9_witness :
    getNumStates (init [128, 65]) = 2 ^ find_hamming_weight [128, 65] ∧
    (hasNext (advance (init [128, 65]) 2) = true ↔
      2 < 2 ^ find_hamming_weight [128, 65]) ∧
    (2 < 5 → 5 < 2 ^ find_hamming_weight [128, 65] →
      output [128, 65] 2 < output [128, 65] 5) ∧
    output [128, 65] 2 = spread (find_shift_indices [128, 65]) 2 ∧
    ((∃ m, m < 2 ^ find_hamming_weight [128, 65] ∧ output [128, 65] m = 65) ↔
      (∀ t, (65 : Nat).testBit t = true → t ∈ find_shift_indices [128, 65])) :=
  claim9_state_iterator [128, 65] 2 5 65 (by norm_num) (by decide)

end StateIter

/-! ## PRNG buffer filling (C10) -/

namespace Xorshift

theorem toLEBytes_length (w len : Nat) : (toLEBytes w len).length = len := by
  simp [toLEBytes]

theorem take_app2 (A B C : List Nat) :
    (A ++ B ++ C).take (A.length + B.length) = A ++ B :=
  List.take_left' (by simp)

theorem drop_app2 (A B C : List Nat) (k : Nat) :
    (A ++ B ++ C).drop (A.length + B.length + k) = C.drop k := by
  rw [← List.drop_drop, List.drop_left' (show (A ++ B).length = A.length + B.length by simp)]

theorem nextWords_succ (ctx : Ctx) (n : Nat) :
    nextWords ctx (n + 1) =
      ((next ctx).1 :: (nextWords (next ctx).2 n).1, (nextWords (next ctx).2 n).2) :=
  rfl

theorem fillWords_spec :
    ∀ (count : Nat) (ctx : Ctx) (data : List Nat) (i : Nat),
      8 * i + 8 * count ≤ data.length →
      fillWords ctx data i count =
        (data.take (8 * i) ++
          ((nextWords ctx count).1.map (fun w => toLEBytes w 8)).flatten ++
          data.drop (8 * i + 8 * count),
         (nextWords ctx count).2) := by
  intro count
  induction count with
  | zero =>
    intro ctx data i h
    show (data, ctx) = _
    simp [nextWords]
  | succ count ih =>
    intro ctx data i h
    have hlen : 8 * i + 8 ≤ data.length := by omega
    have htk : (data.take (i * 8)).length = i * 8 := by
      rw [List.length_take]
      omega
    show fillWords (next ctx).2
        (listWrite data (i * 8) (toLEBytes (next ctx).1 8)) (i + 1) count = _
    have hwlen : (listWrite data (i * 8) (toLEBytes (next ctx).1 8)).length =
        data.length := by
      simp only [listWrite, List.length_append, List.length_take, List.length_drop,
        toLEBytes_length]
      omega
    rw [ih (next ctx).2 _ (i + 1) (by omega)]
    rw [nextWords_succ]
    simp only [List.map_cons, List.flatten_cons]
    have htake : (listWrite data (i * 8) (toLEBytes (next ctx).1 8)).take (8 * (i + 1)) =
        data.take (8 * i) ++ toLEBytes (next ctx).1 8 := by
      unfold listWrite
      rw [show 8 * (i + 1) = (data.take (i * 8)).length +
          (toLEBytes (next ctx).1 8).length from by
        rw [htk, toLEBytes_length]; omega]
      rw [take_app2]
      rw [show i * 8 = 8 * i from by omega]
    have hdrop : (listWrite data (i * 8) (toLEBytes (next ctx).1 8)).drop
          (8 * (i + 1) + 8 * count) =
        data.drop (8 * i + 8 * (count + 1)) := by
      unfold listWrite
      rw [show 8 * (i + 1) + 8 * count = (data.take (i * 8)).length +
          (toLEBytes (next ctx).1 8).length + 8 * count from by
        rw [htk, toLEBytes_length]; omega]
      rw [drop_app2, List.drop_drop]
      rw [show i * 8 + (toLEBytes (next ctx).1 8).length + 8 * count =
          8 * i + 8 * (count + 1) from by rw [toLEBytes_length]; omega]
    rw [htake, hdrop]
    simp [List.append_assoc]

end Xorshift

namespace Xorshift

theorem nextWords_length (ctx : Ctx) : ∀ m, ((nextWords ctx m).1).length = m := by
  intro m
  induction m generalizing ctx with
  | zero => rfl
  | succ m ih =>
    rw [nextWords_succ]
    simp [ih]

theorem flatten_words_length (ctx : Ctx) :
    ∀ m, (((nextWords ctx m).1.map (fun w => toLEBytes w 8)).flatten).length = 8 * m := by
  intro m
  induction m generalizing ctx with
  | zero => rfl
  | succ m ih =>
    rw [nextWords_succ]
    simp only [List.map_cons, List.flatten_cons, List.length_append,
      toLEBytes_length, ih]
    omega

end Xorshift

namespace Xorshift

/-- C10 (counterexample): for `num_bytes = 3` (not a multiple of 8) the
"final `num_bytes mod 8` bytes" are positions 0..3, i.e. the whole buffer,
and they ARE written: the extra word's bytes land there, so the buffer does
not keep its original contents at those positions. -/
theorem claim10_counterexample :
    (get_random witnessCtx [99, 99, 99] 3).1.drop (3 - 3 % 8) ≠
      ([99, 99, 99] : List Nat).drop (3 - 3 % 8) := by
  decide

/-- C10 (amended): for `num_bytes` a multiple of 8, `get_random` fills the
buffer with the little-endian bytes of consecutive `xorshift1024_next`
outputs in order.  For `num_bytes` not a multiple of 8, one extra word is
drawn and its first `num_bytes mod 8` bytes are copied to offset 0
(overwriting the first bytes); when additionally `num_bytes >= 8`, the
final `num_bytes mod 8` bytes of the buffer are never written. -/
theorem claim10_get_random (ctx : Ctx) (data : List Nat) (n : Nat)
    (hlen : data.length = n) :
    (n % 8 = 0 →
      (get_random ctx data n).1 =
        ((nextWords ctx (n / 8)).1.map (fun w => toLEBytes w 8)).flatten) ∧
    (n % 8 ≠ 0 →
      (get_random ctx data n).1 =
        toLEBytes (next (nextWords ctx (n / 8)).2).1 (n % 8) ++
          ((((nextWords ctx (n / 8)).1.map (fun w => toLEBytes w 8)).flatten ++
            data.drop (8 * (n / 8))).drop (n % 8)) ∧
      (8 ≤ n →
        (get_random ctx data n).1.drop (8 * (n / 8)) =
          data.drop (8 * (n / 8)))) := by
  have hfill := fillWords_spec (n / 8) ctx data 0 (by rw [hlen]; omega)
  constructor
  · intro h8
    have hdn : 8 * (n / 8) = n := by omega
    unfold get_random
    simp only [hfill]
    rw [if_neg (by omega : ¬n - n / 8 * 8 > 0)]
    simp only [Nat.mul_zero, Nat.zero_add, List.take_zero, List.nil_append]
    rw [hdn, ← hlen, List.drop_length, List.append_nil]
  · intro h8
    have hres : (get_random ctx data n).1 =
        toLEBytes (next (nextWords ctx (n / 8)).2).1 (n % 8) ++
          ((((nextWords ctx (n / 8)).1.map (fun w => toLEBytes w 8)).flatten ++
            data.drop (8 * (n / 8))).drop (n % 8)) := by
      unfold get_random
      simp only [hfill]
      rw [if_pos (by omega : n - n / 8 * 8 > 0)]
      show listWrite _ 0 _ = _
      unfold listWrite
      rw [show n - n / 8 * 8 = n % 8 from by omega]
      simp only [List.take_zero, List.nil_append, Nat.zero_add, Nat.mul_zero,
        toLEBytes_length]
    refine ⟨hres, fun h8n => ?_⟩
    rw [hres]
    rw [List.drop_append_of_le_length
      (show n % 8 ≤
          (((nextWords ctx (n / 8)).1.map (fun w => toLEBytes w 8)).flatten).length
        from by rw [flatten_words_length]; omega)]
    rw [← List.append_assoc]
    rw [show 8 * (n / 8) =
        (toLEBytes (next (nextWords ctx (n / 8)).2).1 (n % 8)).length +
          ((((nextWords ctx (n / 8)).1.map
            (fun w => toLEBytes w 8)).flatten).drop (n % 8)).length + 0 from by
      rw [toLEBytes_length, List.length_drop, flatten_words_length]; omega]
    rw [drop_app2]
    simp

/-- Witness for the amended C10 at a concrete generator state and buffer. -/
theorem claim10_witness :
    (16 % 8 = 0 →
      (get_random witnessCtx (List.replicate 16 7) 16).1 =
        ((nextWords witnessCtx (16 / 8)).1.map (fun w => toLEBytes w 8)).flatten) ∧
    (16 % 8 ≠ 0 →
      (get_random witnessCtx (List.replicate 16 7) 16).1 =
        toLEBytes (next (nextWords witnessCtx (16 / 8)).2).1 (16 % 8) ++
          ((((nextWords witnessCtx (16 / 8)).1.map
              (fun w => toLEBytes w 8)).flatten ++
            (List.replicate 16 7).drop (8 * (16 / 8))).drop (16 % 8)) ∧
      (8 ≤ 16 →
        (get_random witnessCtx (List.replicate 16 7) 16).1.drop (8 * (16 / 8)) =
          (List.replicate 16 7).drop (8 * (16 / 8)))) :=
  claim10_get_random witnessCtx (List.replicate 16 7) 16 (by simp)

end Xorshift
